import Mathlib

/-!
Verification development for the MOF fragmentation core of this repository
(`Informatics/MOF/fragment_MOFs_for_pormake.py`).

The Python code is shallowly embedded: a structure (`Mol`) carries the atom
count, per-atom element symbol, metal flag, cartesian coordinates and the
symmetric 0/1 adjacency matrix (as a Bool-valued function).  Pure functions of
the source are translated to Lean functions; external contracts that are not
part of the three source files (`get_closed_subgraph`, `linker_length`,
`ligand_detect`, `XYZ_connected`, `mol3D.BCM`, `mol3D.count_atoms`) are
modelled from the specification, as indicated at each definition.
Euclidean distances are compared through their squares so that all
computations stay in `ℚ`.
-/

/-- A 3D coordinate, with rational components. -/
abbrev Vec3 : Type := ℚ × ℚ × ℚ

def vsub (a b : Vec3) : Vec3 := (a.1 - b.1, a.2.1 - b.2.1, a.2.2 - b.2.2)

def vadd (a b : Vec3) : Vec3 := (a.1 + b.1, a.2.1 + b.2.1, a.2.2 + b.2.2)

def vscale (c : ℚ) (a : Vec3) : Vec3 := (c * a.1, c * a.2.1, c * a.2.2)

/-- Squared euclidean distance between two points.  The source compares
`np.linalg.norm(a-b)` against thresholds; comparing the square against the
squared threshold is equivalent since both sides are nonnegative. -/
def sqdist (a b : Vec3) : ℚ :=
  (a.1 - b.1) * (a.1 - b.1) + (a.2.1 - b.2.1) * (a.2.1 - b.2.1) +
    (a.2.2 - b.2.2) * (a.2.2 - b.2.2)

/-- The global structure (`molcif` plus its graph): atom count, element
symbols, the metal predicate used by `findMetal`/`ismetal`, cartesian
coordinates, and the symmetric 0/1 adjacency matrix. -/
structure Mol where
  n : ℕ
  sym : ℕ → String
  isMetal : ℕ → Bool
  coords : ℕ → Vec3
  adj : ℕ → ℕ → Bool

/-- `molcif.findMetal(transition_metals_only=False)`: all metal atom indices. -/
def findMetal (m : Mol) : Finset ℕ :=
  (Finset.range m.n).filter (fun i => m.isMetal i = true)

/-- `molcif.getBondedAtoms` / `getBondedAtomsSmart`: graph neighbors. -/
def bondedAtoms (m : Mol) (i : ℕ) : Finset ℕ :=
  (Finset.range m.n).filter (fun j => m.adj i j = true)

/-- Neighbor list (list form, used by `breakdown_MOF` loops). -/
def bondedList (m : Mol) (i : ℕ) : List ℕ :=
  (List.range m.n).filter (fun j => m.adj i j = true)

/-- First part of `prepare_initial_SBU` (lines 381-384): `SBUlist` is all
metals plus the first coordination shell of every metal. -/
def SBUlist0 (m : Mol) : Finset ℕ :=
  findMetal m ∪ (findMetal m).biUnion (bondedAtoms m)

/-- The `all(...)` test of `prepare_initial_SBU` line 394: every bonded
neighbor of `a` is a metal or a hydrogen. -/
def onlyMetalHNeighborsB (m : Mol) (a : ℕ) : Bool :=
  decide (∀ v ∈ bondedAtoms m a, m.isMetal v = true ∨ m.sym v = "H")

/-- `prepare_initial_SBU` (lines 380-402): returns `(removelist, SBUlist)`.
`removelist` is the metals, plus the atoms of `SBUlist` all of whose bonded
neighbors are metals or hydrogens (line 394), plus every hydrogen bonded to
an atom of `SBUlist` (lines 398-401). -/
def prepare_initial_SBU (m : Mol) : Finset ℕ × Finset ℕ :=
  let SBUlist := SBUlist0 m
  let r1 := findMetal m ∪ SBUlist.filter (fun a => onlyMetalHNeighborsB m a = true)
  let r2 := r1 ∪ SBUlist.biUnion (fun a => (bondedAtoms m a).filter (fun v => m.sym v = "H"))
  (r2, SBUlist)

/-- The removelist as worded by claim C4 (a definition following the claim's
words, kept only to compare against the source's `prepare_initial_SBU`):
metals, union the atoms (of the whole structure) whose every bonded neighbor
is a metal or a hydrogen, union the hydrogens bonded to any atom of that
union. -/
def removelist_per_claim (m : Mol) : Finset ℕ :=
  let u := findMetal m ∪ (Finset.range m.n).filter (fun a => onlyMetalHNeighborsB m a = true)
  u ∪ u.biUnion (fun b => (bondedAtoms m b).filter (fun v => m.sym v = "H"))

/-- `long_ligands` as computed at the end of `identify_short_linkers`
(lines 503-510). -/
def long_ligands_of (max_min min_max : ℕ) : Bool :=
  if 2 < min_max then (max_min == min_max) || (3 < min_max) else false

/-- Outcome of the regime decision of `make_MOF_fragments` (lines 622-645):
either the early-return code (2 or 3) or proceeding to `breakdown_MOF`
(which is the only place fragment files are written). -/
inductive RegimeOut where
  | proceedBreakdown : RegimeOut
  | ret : ℕ → RegimeOut
deriving DecidableEq

/-- The regime decision of `make_MOF_fragments` (lines 622-645): with
`min_max_linker_length > 2` and long ligands the run proceeds to
`breakdown_MOF`; with `min_max_linker_length > 2` but short ligands it
returns 2; otherwise (the degenerate regime) it returns 3. -/
def regime_of (max_min min_max : ℕ) : RegimeOut :=
  if 2 < min_max then
    if long_ligands_of max_min min_max then RegimeOut.proceedBreakdown
    else RegimeOut.ret 2
  else RegimeOut.ret 3

/-- Neighbors of `x` that lie inside the working set `seed`. -/
def nbrsIn (adj : ℕ → ℕ → Bool) (seed : Finset ℕ) (x : ℕ) : Finset ℕ :=
  seed.filter (fun y => adj x y = true)

/-- One breadth-first expansion step inside `seed`. -/
def stepR (adj : ℕ → ℕ → Bool) (seed : Finset ℕ) (S : Finset ℕ) : Finset ℕ :=
  S ∪ S.biUnion (nbrsIn adj seed)

/-- Atoms reachable from `x` without leaving `seed`; iterating the expansion
step `seed.card` times reaches a fixed point (proved below). -/
def reachSet (adj : ℕ → ℕ → Bool) (seed : Finset ℕ) (x : ℕ) : Finset ℕ :=
  (stepR adj seed)^[seed.card] {x}

/-- Helper for `get_closed_subgraph`: scan the seed atoms in order and start a
new component at each atom not yet covered. -/
def compsAux (adj : ℕ → ℕ → Bool) (seed : Finset ℕ) :
    List ℕ → List (Finset ℕ) → List (Finset ℕ)
  | [], acc => acc
  | x :: rest, acc =>
      if acc.any (fun c => x ∈ c) then compsAux adj seed rest acc
      else compsAux adj seed rest (acc ++ [reachSet adj seed x])

/-- The elements of a finite set of atom indices, enumerated in increasing
order. -/
def seedList (seed : Finset ℕ) : List ℕ :=
  (List.range (seed.sup id + 1)).filter (fun a => decide (a ∈ seed))

/-- Modelled from the spec: the external `get_closed_subgraph(seed, barrier,
adj)` contract returns the connected components reachable from seed atoms
without crossing barrier atoms, i.e. the connected components of the
subgraph induced on `seed` (deterministic, stable order). -/
def get_closed_subgraph (adj : ℕ → ℕ → Bool) (seed : Finset ℕ) : List (Finset ℕ) :=
  compsAux adj seed (seedList seed) []

/-- Counterexample structure for C4: atom 0 a metal, atom 1 a carbon bonded
to the metal, a hydrogen (atom 2) and another carbon (atom 3). -/
def mol4 : Mol where
  n := 4
  sym := fun i => if i = 0 then "Zn" else if i = 2 then "H" else "C"
  isMetal := fun i => decide (i = 0)
  coords := fun _ => (0, 0, 0)
  adj := fun i j => decide ((i, j) ∈ [(0, 1), (1, 0), (1, 2), (2, 1), (1, 3), (3, 1)])

/-- Context of the linker-vs-ligand classification loop of
`identify_short_linkers` (lines 427-498): the global adjacency matrix, the
initial SBU components (`initial_SBU_list`), and the external contracts
`linker_length` (shortest/longest anchor-to-anchor path, spec section 6) and
`ligand_detect` (periodic-image offsets per atom, spec section 6), the
latter split into the organic-side call (line 464) and the SBU-side call
(line 471).  The offsets are integer lattice vectors per the spec's design
note. -/
structure ClsCtx where
  adj : ℕ → ℕ → Bool
  initialSBUs : List (Finset ℕ)
  lenO : Finset ℕ → ℕ × ℕ
  imgOrganic : Finset ℕ → List (ℤ × ℤ × ℤ)
  imgSbu : Finset ℕ → List (ℤ × ℤ × ℤ)

/-- The anchoring atoms of a candidate fragment (`linkeranchors_atoms`,
lines 442-450): atoms of the fragment bonded to an atom of some initial SBU
component. -/
def anchorsOf (ctx : ClsCtx) (frag : Finset ℕ) : Finset ℕ :=
  frag.filter (fun a => ∃ c ∈ ctx.initialSBUs, ∃ s ∈ c, ctx.adj a s = true)

/-- The set of initial SBU components touched by the fragment
(`sbu_connect_list`, line 450). -/
def sbuConnectSet (ctx : ClsCtx) (frag : Finset ℕ) : Finset ℕ :=
  (Finset.range ctx.initialSBUs.length).filter
    (fun kk => ∃ a ∈ frag, ∃ s ∈ ctx.initialSBUs.getD kk ∅, ctx.adj a s = true)

/-- The `sbu_temp` set of line 465-467: anchoring atoms united with the
single touched SBU component (the first element of `sbu_connect_list`). -/
def sbuSideSet (ctx : ClsCtx) (frag : Finset ℕ) : Finset ℕ :=
  anchorsOf ctx frag ∪
    ctx.initialSBUs.getD (((sbuConnectSet ctx frag).sort (· ≤ ·)).headD 0) ∅

/-- The periodic-image uniqueness test of line 472: both the SBU side and the
organic side resolve to exactly one distinct offset
(`len(np.unique(...))==1` on both). -/
def bothUniqueImages (ctx : ClsCtx) (frag : Finset ℕ) : Bool :=
  ((ctx.imgSbu (sbuSideSet ctx frag)).dedup.length == 1) &&
    ((ctx.imgOrganic frag).dedup.length == 1)

/-- The per-fragment verdict of the classification loop (lines 453-498):
`true` means the fragment is kept as a linker, `false` means it is folded
back as a ligand. -/
def classifyFrag (ctx : ClsCtx) (frag : Finset ℕ) : Bool :=
  if 2 ≤ (anchorsOf ctx frag).card then
    if 2 ≤ (sbuConnectSet ctx frag).card then true
    else !(bothUniqueImages ctx frag)
  else false

/-- Mutable state of the classification loop: the growing `removelist` and
`SBUlist`, the kept linker fragments (`linker_list` after pops), the
dropped ligand fragments, the running aggregates
`max_min_linker_length`/`min_max_linker_length`, and the audit records
appended to `ligand.txt` and `ambiguous.txt` (modelled as the fragments the
records describe). -/
structure ScanState where
  removelist : Finset ℕ
  SBUlist : Finset ℕ
  kept : List (Finset ℕ)
  dropped : List (Finset ℕ)
  maxMin : ℕ
  minMax : ℕ
  ligandRecords : List (Finset ℕ)
  ambiguousRecords : List (Finset ℕ)

/-- One iteration of the classification loop of `identify_short_linkers`
(lines 432-498) on one candidate fragment.  The source iterates in reversed
order and pops dropped fragments from `linker_list`; this is modelled by
accumulating the kept fragments (`kept`) and the dropped ones (`dropped`),
which leaves the same sets. -/
def scanStep (ctx : ClsCtx) (st : ScanState) (frag : Finset ℕ) : ScanState :=
  if 2 ≤ (anchorsOf ctx frag).card then
    if 2 ≤ (sbuConnectSet ctx frag).card then
      { st with kept := st.kept ++ [frag],
                maxMin := max (ctx.lenO frag).1 st.maxMin,
                minMax := min (ctx.lenO frag).2 st.minMax }
    else if bothUniqueImages ctx frag then
      { st with removelist := st.removelist ∪ frag,
                SBUlist := st.SBUlist ∪ frag,
                dropped := st.dropped ++ [frag],
                ligandRecords := st.ligandRecords ++ [frag],
                ambiguousRecords := st.ambiguousRecords ++ [frag] }
    else
      { st with kept := st.kept ++ [frag],
                maxMin := max (ctx.lenO frag).1 st.maxMin,
                minMax := min (ctx.lenO frag).2 st.minMax,
                ambiguousRecords := st.ambiguousRecords ++ [frag] }
  else
    { st with removelist := st.removelist ∪ frag,
              SBUlist := st.SBUlist ∪ frag,
              dropped := st.dropped ++ [frag],
              ligandRecords := st.ligandRecords ++ [frag] }

/-- The aggregate update in isolation: `max_min_linker_length` takes the max
with the fragment's shortest anchor path and `min_max_linker_length` the min
with its longest anchor path, and only fragments classified as linkers
update the pair (lines 455-456 and 473-474). -/
def aggStep (ctx : ClsCtx) (p : ℕ × ℕ) (frag : Finset ℕ) : ℕ × ℕ :=
  if classifyFrag ctx frag = true then
    (max (ctx.lenO frag).1 p.1, min (ctx.lenO frag).2 p.2)
  else p

/-- The aggregate pair after scanning a list of fragments, from the initial
`(max_min_linker_length, min_max_linker_length) = (0, 100)` of line 431. -/
def scanAggs (ctx : ClsCtx) (frags : List (Finset ℕ)) : ℕ × ℕ :=
  frags.foldl (aggStep ctx) (0, 100)

/-- The classification pipeline of `make_MOF_fragments` up to and including
`identify_short_linkers` (lines 590-613): `prepare_initial_SBU`, the linker
components (`identify_lc_atoms`, line 408: closed subgraphs of all atoms
minus the removelist), the initial SBU components (line 612), then the
classification scan.  Returns the initial removelist together with the
final scan state. -/
def pipelineC2 (m : Mol) (lenO : Finset ℕ → ℕ × ℕ)
    (imgO imgS : Finset ℕ → List (ℤ × ℤ × ℤ)) : Finset ℕ × ScanState :=
  let pr := prepare_initial_SBU m
  let linkers := Finset.range m.n \ pr.1
  let linkerComps := get_closed_subgraph m.adj linkers
  let initialSBUs := get_closed_subgraph m.adj pr.1
  let ctx : ClsCtx := ⟨m.adj, initialSBUs, lenO, imgO, imgS⟩
  (pr.1, linkerComps.foldl (scanStep ctx) ⟨pr.1, pr.2, [], [], 0, 100, [], []⟩)

/-- Counterexample structure for C2: a metal - carbon - carbon - metal chain.
The two carbons form the single linker fragment; both are in the first
coordination shell of a metal, hence also in `SBUlist`. -/
def mol2 : Mol where
  n := 4
  sym := fun i => if i = 0 ∨ i = 3 then "Zn" else "C"
  isMetal := fun i => decide (i = 0 ∨ i = 3)
  coords := fun _ => (0, 0, 0)
  adj := fun i j => decide ((i, j) ∈ [(0, 1), (1, 0), (1, 2), (2, 1), (2, 3), (3, 2)])

/-- A trivial instantiation of the external `linker_length` contract, used
for concrete runs where the aggregate lengths are irrelevant. -/
def lenO0 : Finset ℕ → ℕ × ℕ := fun _ => (3, 3)

/-- A trivial instantiation of the external `ligand_detect` contract: every
atom resolves to the zero periodic-image offset. -/
def imgO0 : Finset ℕ → List (ℤ × ℤ × ℤ) := fun _ => [(0, 0, 0)]

/-- Structure for the C5 witness: one metal (atom 0) bonded to two carbons
(atoms 1, 2) that are also bonded to each other: the fragment `{1, 2}` has
two anchoring atoms touching the single SBU component `{0}`. -/
def mol5 : Mol where
  n := 3
  sym := fun i => if i = 0 then "Zn" else "C"
  isMetal := fun i => decide (i = 0)
  coords := fun _ => (0, 0, 0)
  adj := fun i j => decide ((i, j) ∈ [(0, 1), (1, 0), (0, 2), (2, 0), (1, 2), (2, 1)])

/-- Classification context for the C5/C8 witnesses, built on `mol5` with the
single initial SBU component `{0}`. -/
def ctx5 : ClsCtx := ⟨mol5.adj, [{0}], lenO0, imgO0, imgO0⟩

/-- An empty classification scan state, for concrete runs. -/
def st0ex : ScanState := ⟨∅, ∅, [], [], 0, 100, [], []⟩

/-- An assembled SBU fragment as it stands at lines 264-278 of
`breakdown_MOF`: the local atom count, the induced adjacency (`tempgraph`),
the reconstructed coordinates after `XYZ_connected`/`returnXYZandGraph`
(external contract, lines 271-274), and the capping records
(`tuple_list_sbu` passed through `inv_SBU_dict`): pairs of the placeholder's
local index and its anchor's local index. -/
structure SBUFrag where
  n : ℕ
  graph : ℕ → ℕ → Bool
  recon : ℕ → Vec3
  caps : List (ℕ × ℕ)

/-- Modelled from the spec: the external `mol3D.BCM(idx1, idx2, 0.75)` call
of line 276 shortens every capping bond to 0.75 of the original bond vector
magnitude, moving the placeholder along the bond axis toward its anchor.
Anchors are regular atoms (never placeholders), so the sequential
applications of the source are independent and modelled pointwise. -/
def bcmShift (f : SBUFrag) (i : ℕ) : Vec3 :=
  match f.caps.find? (fun c => c.1 == i) with
  | some c => vadd (f.recon c.2) (vscale (3 / 4) (vsub (f.recon i) (f.recon c.2)))
  | none => f.recon i

/-- The bonded index pairs of a fragment graph (the nonzero entries scanned
by `periodic_checker`, lines 19-23). -/
def bondedPairs (n : ℕ) (g : ℕ → ℕ → Bool) : List (ℕ × ℕ) :=
  (List.range n).flatMap
    (fun i => ((List.range n).filter (fun j => g i j = true)).map (fun j => (i, j)))

/-- The maximal squared bonded-pair distance accumulated by
`periodic_checker` (lines 21-28, `maxdist` starts at 0). -/
def maxBondedSq (n : ℕ) (g : ℕ → ℕ → Bool) (coords : ℕ → Vec3) : ℚ :=
  ((bondedPairs n g).map (fun p => sqdist (coords p.1) (coords p.2))).foldl max 0

/-- `periodic_checker(graph, coords, atoms)` (lines 16-31): true when some
bonded pair is at distance strictly greater than 4 (compared in squares:
greater than 16).  The `atoms` argument of the source is unused. -/
def periodic_checker (n : ℕ) (g : ℕ → ℕ → Bool) (coords : ℕ → Vec3) : Bool :=
  decide (16 < maxBondedSq n g coords)

/-- `is_periodic` of line 278: `periodic_checker` applied to `new_coords`,
the coordinates read back from the SBU mol AFTER the BCM bond-length
corrections of lines 275-276. -/
def is_periodic (f : SBUFrag) : Bool :=
  periodic_checker f.n f.graph (bcmShift f)

/-- The rod test as worded by claim C3 (a definition following the claim's
words, kept only to compare with the source's `is_periodic`): some bonded
pair of the raw, pre-bond-length-correction reconstructed coordinates is at
distance strictly greater than 4. -/
def rod_per_claim (f : SBUFrag) : Bool :=
  periodic_checker f.n f.graph f.recon

/-- Outcome of the SBU-writing loop of `breakdown_MOF` (lines 125-297):
either an early return code (2 when `current_longest <= 2` at line 159-160,
4 when the written name carries the 1D-rod marker at lines 295-297), a
Python `NameError` when the unbound local `xyzname` is read at line 292, or
normal completion of the loop (the run proceeds to the linker loop). -/
inductive SBUOutcome where
  | nameErr : SBUOutcome
  | ret : ℕ → SBUOutcome
  | finished : SBUOutcome
deriving DecidableEq

/-- The SBU loop of `breakdown_MOF` restricted to its control flow
(lines 159-297).  `cl` is `current_longest` (the longest anchor-to-anchor
path over all linkers, identical in every iteration); each list entry is an
assembled fragment together with the `os.path.exists` result for its target
file; the threaded `Option Bool` is the state of the local variable
`xyzname` (`none` = never assigned, `some rod` = assigned, with `rod`
recording whether the name carries the `"1Drod"` marker chosen at
lines 282-286).  Reading `xyzname` while unassigned (line 292) raises
`NameError`. -/
def breakdown_sbu_go (cl : ℕ) (sbupath : Bool) :
    Option Bool → List (SBUFrag × Bool) → SBUOutcome
  | _, [] => SBUOutcome.finished
  | xyz, (f, fileEx) :: rest =>
      if cl ≤ 2 then SBUOutcome.ret 2
      else
        match (if sbupath && !fileEx then some (is_periodic f) else xyz) with
        | none => SBUOutcome.nameErr
        | some rod =>
            if rod then SBUOutcome.ret 4
            else breakdown_sbu_go cl sbupath (some rod) rest

/-- The SBU loop from its entry state: `xyzname` starts unassigned. -/
def breakdown_sbu_phase (cl : ℕ) (sbupath : Bool) (l : List (SBUFrag × Bool)) :
    SBUOutcome :=
  breakdown_sbu_go cl sbupath none l

/-- Counterexample fragment for C3: a placeholder (local atom 1) capped at a
bond of length 5 from its anchor (local atom 0).  Before the BCM correction
the bonded distance is 5 (squared 25); after it the placeholder sits at
15/4, below the threshold of 4. -/
def exFrag3 : SBUFrag where
  n := 2
  graph := fun i j => decide ((i, j) ∈ [(0, 1), (1, 0)])
  recon := fun i => if i = 0 then (0, 0, 0) else (5, 0, 0)
  caps := [(1, 0)]

/-- Outcome of the precondition checks of `make_MOF_fragments`
(lines 537-576): `abortNone log` models writing the given failure record to
`FailedStructures.log` and returning the pair `(None, None)`; `proceed`
models continuing into the decomposition. -/
inductive PrecheckOut where
  | abortNone : String → PrecheckOut
  | proceed : PrecheckOut
deriving DecidableEq

/-- The precondition checks of `make_MOF_fragments`, in source order
(lines 541-576): structure too large (more than 2000 atoms), atomic overlap
(`compute_adj_matrix` raising; external contract, modelled as the Boolean
input `overlap`), no metal found, then the per-component scan that aborts at
the first connected component containing no metal (solvent molecules). -/
def make_MOF_precheck (m : Mol) (overlap : Bool) : PrecheckOut :=
  if 2000 < m.n then PrecheckOut.abortNone "large primitive cell"
  else if overlap then PrecheckOut.abortNone "atomic overlap"
  else if findMetal m = ∅ then PrecheckOut.abortNone "no metal found"
  else
    match (get_closed_subgraph m.adj (Finset.range m.n)).find?
        (fun c => decide (c ∩ findMetal m = ∅)) with
    | some _ => PrecheckOut.abortNone "solvent molecules"
    | none => PrecheckOut.proceed

/-- Counterexample structure for C10: a single non-metal atom.  Its bond
graph has a connected component with no metal, yet the run aborts with the
"no metal found" record, not the "solvent molecules" record. -/
def mol10 : Mol where
  n := 1
  sym := fun _ => "O"
  isMetal := fun _ => false
  coords := fun _ => (0, 0, 0)
  adj := fun _ _ => false

/-- Witness structure for C10: a metal atom and a disconnected non-metal
atom (a floating solvent molecule). -/
def mol10b : Mol where
  n := 2
  sym := fun i => if i = 0 then "Zn" else "O"
  isMetal := fun i => decide (i = 0)
  coords := fun _ => (0, 0, 0)
  adj := fun _ _ => false

/-- A local atom of a fragment under assembly (what `mol3D.addAtom` copies:
the element symbol and the 3D position). -/
structure LocAtom where
  sym : String
  xyz : Vec3
deriving DecidableEq

instance : Inhabited LocAtom := ⟨⟨"", (0, 0, 0)⟩⟩

/-- A fragment under assembly: the local atom list (`SBU_mol`/`linker_mol`),
the list of global indices added so far (`SBU_added`/`linker_added`), and
the local-to-global dictionary (`SBU_dict`/`linker_dict`). -/
structure FragState where
  atomsL : List LocAtom
  added : List ℕ
  dict : List (ℕ × ℕ)
deriving DecidableEq

def emptyFrag : FragState := ⟨[], [], []⟩

/-- `mol.addAtom(molcif.getAtom(v))` plus the bookkeeping appends. -/
def appendAtom (m : Mol) (st : FragState) (v : ℕ) : FragState :=
  ⟨st.atomsL ++ [⟨m.sym v, m.coords v⟩], st.added ++ [v],
    st.dict ++ [(st.atomsL.length, v)]⟩

/-- Guarded addition (`if val not in SBU_added`, the pattern used by every
regular addition of lines 180-235). -/
def addAtomGuarded (m : Mol) (st : FragState) (v : ℕ) : FragState :=
  if v ∈ st.added then st else appendAtom m st v

/-- A capping candidate collected by the scans (an entry of
`X_atom3D_list`/`X_atom3D_list_linker`): the placeholder atom (symbol "X"
created at the replaced atom's 3D position), the replaced global index, and
the global anchor it is bonded to. -/
structure XCand where
  atom : LocAtom
  replaced : ℕ
  anchor : ℕ
deriving DecidableEq

/-- A CappingRecord of an emitted fragment: the placeholder's local index,
the replaced global index and the global anchor (the information of
`tuple_list_sbu`/`tuple_list_linker` and `atoms_that_are_X`). -/
structure CapRec where
  xlocal : ℕ
  replaced : ℕ
  anchor : ℕ
deriving DecidableEq

/-- Result of a fragment assembly. -/
structure FragOut where
  st : FragState
  caps : List CapRec
  finalX : List ℕ
  atomsX : List ℕ
deriving DecidableEq

/-- The X-append phase shared by lines 251-261 (SBU) and 336-346 (linker):
every candidate whose replaced atom is not yet in the added list is appended
after all regular atoms, and recorded (tuple list, `final_X_indices`,
`atoms_that_are_X`). -/
def appendXAtoms (st0 : FragState) (xl : List XCand) : FragOut :=
  xl.foldl
    (fun out c =>
      if c.replaced ∈ out.st.added then out
      else
        ⟨⟨out.st.atomsL ++ [c.atom], out.st.added ++ [c.replaced],
            out.st.dict ++ [(out.st.atomsL.length, c.replaced)]⟩,
          out.caps ++ [⟨out.st.atomsL.length, c.replaced, c.anchor⟩],
          out.finalX ++ [out.st.atomsL.length],
          out.atomsX ++ [c.replaced]⟩)
    ⟨st0, [], [], []⟩

/-- State of the combined hydrogen/X scan of lines 236-249. -/
structure HXState where
  st : FragState
  xlist : List XCand
  xchecked : List ℕ
deriving DecidableEq

/-- Lines 239-243: a bonded hydrogen not yet added is added to the SBU. -/
def hxScanH (m : Mol) (hx : HXState) (b : ℕ) : HXState :=
  if m.sym b = "H" ∧ b ∉ hx.st.added then ⟨appendAtom m hx.st b, hx.xlist, hx.xchecked⟩
  else hx

/-- Lines 244-249: a bonded atom on the organic main path that is neither
added nor X-checked becomes an X candidate, created at the same 3D position
as the atom it replaces (`atom3D(Sym='X', xyz=temp_atom_coords.copy())`). -/
def hxScanX (m : Mol) (mainPaths : List ℕ) (a : ℕ) (hx : HXState) (b : ℕ) : HXState :=
  if b ∈ mainPaths ∧ b ∉ hx.st.added ∧ b ∉ hx.xchecked then
    ⟨hx.st, hx.xlist ++ [⟨⟨"X", m.coords b⟩, b, a⟩], hx.xchecked ++ [b]⟩
  else hx

/-- One bonded atom of the scan of lines 237-249: the hydrogen test runs
first, then the X test against the updated added list. -/
def hxScanStep (m : Mol) (mainPaths : List ℕ) (a : ℕ) (hx : HXState) (b : ℕ) : HXState :=
  hxScanX m mainPaths a (hxScanH m hx b) b

/-- Lines 237-249 for one already-added atom `a`. -/
def hxScanAtom (m : Mol) (mainPaths : List ℕ) (hx : HXState) (a : ℕ) : HXState :=
  (bondedList m a).foldl (hxScanStep m mainPaths a) hx

/-- The scan of lines 236-249 over a snapshot (`SBU_added.copy()`) of the
added list. -/
def hxScan (m : Mol) (mainPaths : List ℕ) (st : FragState) : HXState :=
  st.added.foldl (hxScanAtom m mainPaths) ⟨st, [], []⟩

/-- The regular phase of the SBU assembly (lines 180-235): the seed atoms,
cycle pulls, branch climbs and cycle-intersection merges together produce a
sequence of candidate global indices (`regularAdds`; claim C7 holds for any
such sequence), each added guarded by membership in `SBU_added` exactly as
in the source. -/
def sbuRegularPhase (m : Mol) (regularAdds : List ℕ) : FragState :=
  regularAdds.foldl (addAtomGuarded m) emptyFrag

/-- The SBU fragment assembly of `breakdown_MOF` (lines 180-261): regular
phase, hydrogen/X scan, then the X-append phase. -/
def buildSBUFrag (m : Mol) (regularAdds mainPaths : List ℕ) : FragOut :=
  appendXAtoms (hxScan m mainPaths (sbuRegularPhase m regularAdds)).st
    (hxScan m mainPaths (sbuRegularPhase m regularAdds)).xlist

/-- Lines 328-335: the SBU-side neighbors of a just-added context atom `b`
that are themselves consumed by an SBU become X candidates.  The source's
test against `X_checked_list_linker` is vacuous: line 335 appends to the
SBU-phase list `X_checked_list` instead, so the linker-side checked list
never grows and only the `not in linker_added` test is effective. -/
def linkerXScan (m : Mol) (allSBU : List ℕ) (b : ℕ)
    (sx : FragState × List XCand) : FragState × List XCand :=
  (bondedList m b).foldl
    (fun sx sub =>
      if sub ∈ allSBU ∧ sub ∉ sx.1.added then
        (sx.1, sx.2 ++ [⟨⟨"X", m.coords sub⟩, sub, b⟩])
      else sx)
    sx

/-- Lines 322-335: a bonded atom of a kept linker atom that belongs to the
SBU set and is not yet added is added as context, and its own SBU-side
neighbors are scanned for X candidates. -/
def linkerBondedStep (m : Mol) (allSBU : List ℕ)
    (sx : FragState × List XCand) (b : ℕ) : FragState × List XCand :=
  if b ∈ allSBU ∧ b ∉ sx.1.added then linkerXScan m allSBU b (appendAtom m sx.1 b, sx.2)
  else sx

/-- Lines 312-335 for one linker atom: skipped when consumed by an SBU
(`atoms_to_be_deleted_from_linker` is the deduplication of `all_SBU_atoms`,
so membership agrees with `allSBU`); otherwise added unguarded (line 316)
and its bonded atoms scanned. -/
def linkerAtomStep (m : Mol) (allSBU : List ℕ)
    (sx : FragState × List XCand) (val : ℕ) : FragState × List XCand :=
  if val ∈ allSBU then sx
  else (bondedList m val).foldl (linkerBondedStep m allSBU) (appendAtom m sx.1 val, sx.2)

/-- The linker fragment collection of lines 299-335. -/
def linkerCollect (m : Mol) (allSBU linker : List ℕ) : FragState × List XCand :=
  linker.foldl (linkerAtomStep m allSBU) (emptyFrag, [])

/-- The linker fragment assembly (lines 299-346): collection, then the
X-append phase. -/
def buildLinkerFrag (m : Mol) (allSBU linker : List ℕ) : FragOut :=
  appendXAtoms (linkerCollect m allSBU linker).1 (linkerCollect m allSBU linker).2

/-- `linker_added_no_X` of line 349: the added global indices that are not
placeholder replacements; the seed of the no-X graph of line 350. -/
def linker_noX_seed (m : Mol) (allSBU linker : List ℕ) : Finset ℕ :=
  ((buildLinkerFrag m allSBU linker).st.added.filter
    (fun a => a ∉ (buildLinkerFrag m allSBU linker).atomsX)).toFinset

/-- Modelled from the spec: `mol3D.count_atoms()` of line 359 counts the
fragment's non-placeholder atoms. -/
def heavyCount (o : FragOut) : ℕ :=
  (o.st.atomsL.filter (fun a => a.sym ≠ "X")).length

/-- The silent-skip test of line 360 (the `continue` before any write):
zero atoms, more than one connected component of the graph restricted to
the non-placeholder atoms (`no_X_graph_linker`, line 354), or fewer than 3
non-placeholder atoms. -/
def linker_skip (m : Mol) (allSBU linker : List ℕ) : Bool :=
  ((buildLinkerFrag m allSBU linker).st.atomsL.length == 0) ||
    decide (1 < (get_closed_subgraph m.adj (linker_noX_seed m allSBU linker)).length) ||
    decide (heavyCount (buildLinkerFrag m allSBU linker) < 3)

/-- All atoms of the fragment are non-placeholders. -/
def NonXF (st : FragState) : Prop := ∀ a ∈ st.atomsL, a.sym ≠ "X"

/-- All collected X candidates are placeholder atoms created at the
position of the global atom they replace. -/
def XWFL (m : Mol) (xl : List XCand) : Prop :=
  ∀ c ∈ xl, c.atom = ⟨"X", m.coords c.replaced⟩

/-- The property claimed by C7 for an assembled fragment: every capping
record's placeholder sits at exactly the global position of the atom it
replaces, and every placeholder's local index is strictly greater than
every non-placeholder's local index. -/
def capsTailExact (m : Mol) (o : FragOut) : Prop :=
  (∀ r ∈ o.caps, (o.st.atomsL.getD r.xlocal default).sym = "X" ∧
      (o.st.atomsL.getD r.xlocal default).xyz = m.coords r.replaced) ∧
  (∀ i j, i < o.st.atomsL.length → j < o.st.atomsL.length →
    (o.st.atomsL.getD i default).sym ≠ "X" → (o.st.atomsL.getD j default).sym = "X" →
    i < j)

/-- Witness structure for C6: one metal bonded to a three-carbon chain. -/
def mol6 : Mol where
  n := 4
  sym := fun i => if i = 0 then "Zn" else "C"
  isMetal := fun i => decide (i = 0)
  coords := fun _ => (0, 0, 0)
  adj := fun i j => decide ((i, j) ∈ [(0, 1), (1, 0), (1, 2), (2, 1), (2, 3), (3, 2)])

/-- Claim C1 (as stated) is false: when the classification stage produces
`min_max_linker_length = 2`, `make_MOF_fragments` falls into the
`min_max_linker_length > 2`-false branch and returns 3, not 2. -/
theorem C1_counterexample :
    regime_of 2 2 ≠ RegimeOut.ret 2 ∧ regime_of 2 2 = RegimeOut.ret 3 := by
  decide

/-- Claim C1, amended: for every structure whose classification stage produces
`min_max_linker_length = 2`, the run aborts with return code 3 (the
degenerate regime), before `breakdown_MOF` is called and hence before any
fragment file is written. -/
theorem C1_theorem (max_min : ℕ) : regime_of max_min 2 = RegimeOut.ret 3 := by
  simp [regime_of]

/-- Claim C4 (as stated) is false on `mol4`: the source removelist contains
the hydrogen bonded to the first-shell carbon (whose other neighbors are
organic), while the claim's removelist does not. -/
theorem C4_counterexample :
    (findMetal mol4).Nonempty ∧
      (prepare_initial_SBU mol4).1 = ({0, 2} : Finset ℕ) ∧
      removelist_per_claim mol4 = ({0} : Finset ℕ) ∧
      (prepare_initial_SBU mol4).1 ≠ removelist_per_claim mol4 := by
  refine ⟨⟨0, ?_⟩, ?_, ?_, ?_⟩ <;> decide

/-- Claim C4, amended: for every input structure with a non-empty metal set,
the removelist returned by `prepare_initial_SBU` consists exactly of: the
metal atoms, the atoms of the initial SBU set (metals plus first coordination
shell) whose every bonded neighbor is a metal or a hydrogen, and the
hydrogens bonded to any atom of the initial SBU set. -/
theorem C4_theorem (m : Mol) (hmet : (findMetal m).Nonempty) (a : ℕ) :
    a ∈ (prepare_initial_SBU m).1 ↔
      (a ∈ findMetal m ∨
        (a ∈ SBUlist0 m ∧ ∀ v ∈ bondedAtoms m a, m.isMetal v = true ∨ m.sym v = "H") ∨
        (m.sym a = "H" ∧ ∃ b ∈ SBUlist0 m, a ∈ bondedAtoms m b)) := by
  classical
  simp only [prepare_initial_SBU, Finset.mem_union, Finset.mem_filter, Finset.mem_biUnion,
    onlyMetalHNeighborsB, decide_eq_true_eq]
  constructor
  · rintro (((h | ⟨hs, hall⟩) | ⟨b, hb, hab, hH⟩))
    · exact Or.inl h
    · exact Or.inr (Or.inl ⟨hs, hall⟩)
    · exact Or.inr (Or.inr ⟨hH, b, hb, hab⟩)
  · rintro (h | ⟨hs, hall⟩ | ⟨hH, b, hb, hab⟩)
    · exact Or.inl (Or.inl h)
    · exact Or.inl (Or.inr ⟨hs, hall⟩)
    · exact Or.inr ⟨b, hb, hab, hH⟩

/-- Witness for C4_theorem at the concrete structure `mol4` and atom 2. -/
theorem C4_witness :
    (findMetal mol4).Nonempty ∧
      (2 ∈ (prepare_initial_SBU mol4).1 ↔
        (2 ∈ findMetal mol4 ∨
          (2 ∈ SBUlist0 mol4 ∧ ∀ v ∈ bondedAtoms mol4 2, mol4.isMetal v = true ∨ mol4.sym v = "H") ∨
          (mol4.sym 2 = "H" ∧ ∃ b ∈ SBUlist0 mol4, 2 ∈ bondedAtoms mol4 b))) :=
  ⟨⟨0, by decide⟩, C4_theorem mol4 ⟨0, by decide⟩ 2⟩

theorem subset_stepR (adj : ℕ → ℕ → Bool) (seed S : Finset ℕ) : S ⊆ stepR adj seed S :=
  Finset.subset_union_left

theorem iter_subset_seed {adj : ℕ → ℕ → Bool} {seed : Finset ℕ} {x : ℕ} (hx : x ∈ seed) :
    ∀ k, (stepR adj seed)^[k] {x} ⊆ seed := by
  intro k
  induction k with
  | zero => simpa using Finset.singleton_subset_iff.mpr hx
  | succ k ih =>
    rw [Function.iterate_succ_apply']
    apply Finset.union_subset ih
    intro z hz
    rcases Finset.mem_biUnion.mp hz with ⟨u, _, hu⟩
    exact (Finset.mem_filter.mp hu).1

theorem iter_mono {adj : ℕ → ℕ → Bool} {seed : Finset ℕ} {x : ℕ} {k m : ℕ} (h : k ≤ m) :
    (stepR adj seed)^[k] {x} ⊆ (stepR adj seed)^[m] {x} := by
  induction m with
  | zero =>
    have : k = 0 := Nat.le_zero.mp h
    simp [this]
  | succ m ih =>
    rcases Nat.eq_or_lt_of_le h with heq | hlt
    · rw [heq]
    · have hkm : k ≤ m := Nat.lt_succ_iff.mp hlt
      refine (ih hkm).trans ?_
      rw [Function.iterate_succ_apply']
      exact subset_stepR _ _ _

theorem iterate_stab {α : Type} (f : α → α) (a : α) (k : ℕ)
    (h : f^[k + 1] a = f^[k] a) : ∀ m, k ≤ m → f^[m] a = f^[k] a := by
  intro m hm
  induction m with
  | zero =>
    have hk : k = 0 := Nat.le_zero.mp hm
    rw [hk]
  | succ m ih =>
    rcases Nat.eq_or_lt_of_le hm with heq | hlt
    · rw [heq]
    · have hkm : k ≤ m := Nat.lt_succ_iff.mp hlt
      rw [Function.iterate_succ_apply', ih hkm]
      have h' := h
      rw [Function.iterate_succ_apply'] at h'
      exact h'

theorem exists_stab {adj : ℕ → ℕ → Bool} {seed : Finset ℕ} {x : ℕ} (hx : x ∈ seed) :
    ∃ k ≤ seed.card, (stepR adj seed)^[k + 1] {x} = (stepR adj seed)^[k] {x} := by
  by_contra hc
  push_neg at hc
  have grow : ∀ k, k ≤ seed.card → k + 1 ≤ ((stepR adj seed)^[k] {x}).card := by
    intro k
    induction k with
    | zero => intro _; simp
    | succ k ih =>
      intro hk
      have hk' : k ≤ seed.card := Nat.le_of_succ_le hk
      have hss : (stepR adj seed)^[k] {x} ⊂ (stepR adj seed)^[k + 1] {x} :=
        HasSubset.Subset.ssubset_of_ne (iter_mono (Nat.le_succ k)) (Ne.symm (hc k hk'))
      exact Nat.succ_le_of_lt (Nat.lt_of_le_of_lt (ih hk') (Finset.card_lt_card hss))
  have h1 : seed.card + 1 ≤ ((stepR adj seed)^[seed.card] {x}).card :=
    grow seed.card (Nat.le_refl _)
  have h2 : ((stepR adj seed)^[seed.card] {x}).card ≤ seed.card :=
    Finset.card_le_card (iter_subset_seed hx seed.card)
  omega

theorem stepR_reachSet {adj : ℕ → ℕ → Bool} {seed : Finset ℕ} {x : ℕ} (hx : x ∈ seed) :
    stepR adj seed (reachSet adj seed x) = reachSet adj seed x := by
  obtain ⟨k, hk, hstab⟩ := @exists_stab adj seed x hx
  have h1 : reachSet adj seed x = (stepR adj seed)^[k] {x} :=
    iterate_stab _ _ k hstab seed.card hk
  calc stepR adj seed (reachSet adj seed x)
      = (stepR adj seed)^[k + 1] {x} := by rw [h1, Function.iterate_succ_apply']
    _ = (stepR adj seed)^[k] {x} := hstab
    _ = reachSet adj seed x := h1.symm

theorem mem_reach_self (adj : ℕ → ℕ → Bool) (seed : Finset ℕ) (x : ℕ) :
    x ∈ reachSet adj seed x :=
  iter_mono (Nat.zero_le seed.card) (by simp)

theorem reach_subset_seed {adj : ℕ → ℕ → Bool} {seed : Finset ℕ} {x : ℕ} (hx : x ∈ seed) :
    reachSet adj seed x ⊆ seed :=
  iter_subset_seed hx seed.card

theorem reach_closed {adj : ℕ → ℕ → Bool} {seed : Finset ℕ} {x : ℕ} (hx : x ∈ seed)
    {y z : ℕ} (hy : y ∈ reachSet adj seed x) (ha : adj y z = true) (hz : z ∈ seed) :
    z ∈ reachSet adj seed x := by
  have hmem : z ∈ stepR adj seed (reachSet adj seed x) :=
    Finset.mem_union_right _
      (Finset.mem_biUnion.mpr ⟨y, hy, Finset.mem_filter.mpr ⟨hz, ha⟩⟩)
  rwa [stepR_reachSet hx] at hmem

theorem reach_least {adj : ℕ → ℕ → Bool} {seed C : Finset ℕ} {x : ℕ} (hxC : x ∈ C)
    (hcl : ∀ y ∈ C, ∀ z, adj y z = true → z ∈ seed → z ∈ C) :
    reachSet adj seed x ⊆ C := by
  have aux : ∀ k, (stepR adj seed)^[k] {x} ⊆ C := by
    intro k
    induction k with
    | zero => simpa using Finset.singleton_subset_iff.mpr hxC
    | succ k ih =>
      rw [Function.iterate_succ_apply']
      apply Finset.union_subset ih
      intro z hz
      rcases Finset.mem_biUnion.mp hz with ⟨u, hu, hzn⟩
      rcases Finset.mem_filter.mp hzn with ⟨hzs, hadj⟩
      exact hcl u (ih hu) z hadj hzs
  exact aux seed.card

theorem mem_reach_symm {adj : ℕ → ℕ → Bool} {seed : Finset ℕ}
    (hs : ∀ i ∈ seed, ∀ j ∈ seed, adj i j = adj j i) {x y : ℕ} (hx : x ∈ seed)
    (hy : y ∈ reachSet adj seed x) : x ∈ reachSet adj seed y := by
  have aux : ∀ k, ∀ w, w ∈ (stepR adj seed)^[k] {x} → x ∈ reachSet adj seed w := by
    intro k
    induction k with
    | zero =>
      intro w hw
      have hwx : w = x := by simpa using hw
      rw [hwx]
      exact mem_reach_self adj seed x
    | succ k ih =>
      intro w hw
      rw [Function.iterate_succ_apply'] at hw
      rcases Finset.mem_union.mp hw with h | h
      · exact ih w h
      · rcases Finset.mem_biUnion.mp h with ⟨u, hu, hwn⟩
        rcases Finset.mem_filter.mp hwn with ⟨hws, hadj⟩
        have hus : u ∈ seed := iter_subset_seed hx k hu
        have hxu : x ∈ reachSet adj seed u := ih u hu
        have hwu : adj w u = true := by rw [hs w hws u hus]; exact hadj
        have huw : u ∈ reachSet adj seed w :=
          reach_closed hws (mem_reach_self adj seed w) hwu hus
        have hsub : reachSet adj seed u ⊆ reachSet adj seed w :=
          reach_least huw (fun a ha z hz hzs => reach_closed hws ha hz hzs)
        exact hsub hxu
  exact aux seed.card y hy

theorem reach_class_eq {adj : ℕ → ℕ → Bool} {seed : Finset ℕ}
    (hs : ∀ i ∈ seed, ∀ j ∈ seed, adj i j = adj j i) {x y z : ℕ}
    (hx : x ∈ seed) (hy : y ∈ seed)
    (hzx : z ∈ reachSet adj seed x) (hzy : z ∈ reachSet adj seed y) :
    reachSet adj seed x = reachSet adj seed y := by
  have hz : z ∈ seed := reach_subset_seed hx hzx
  have e1 : reachSet adj seed x = reachSet adj seed z := by
    apply Finset.Subset.antisymm
    · exact reach_least (mem_reach_symm hs hx hzx)
        (fun a ha w hw hws => reach_closed hz ha hw hws)
    · exact reach_least hzx (fun a ha w hw hws => reach_closed hx ha hw hws)
  have e2 : reachSet adj seed y = reachSet adj seed z := by
    apply Finset.Subset.antisymm
    · exact reach_least (mem_reach_symm hs hy hzy)
        (fun a ha w hw hws => reach_closed hz ha hw hws)
    · exact reach_least hzy (fun a ha w hw hws => reach_closed hy ha hw hws)
  rw [e1, e2]

theorem compsAux_acc_mem (adj : ℕ → ℕ → Bool) (seed : Finset ℕ) :
    ∀ (l : List ℕ) (acc : List (Finset ℕ)) (c : Finset ℕ),
      c ∈ acc → c ∈ compsAux adj seed l acc := by
  intro l
  induction l with
  | nil => intro acc c hc; simpa [compsAux] using hc
  | cons x rest ih =>
    intro acc c hc
    unfold compsAux
    split
    · exact ih acc c hc
    · exact ih _ c (List.mem_append_left _ hc)

theorem compsAux_mem (adj : ℕ → ℕ → Bool) (seed : Finset ℕ) :
    ∀ (l : List ℕ) (acc : List (Finset ℕ)), (∀ a ∈ l, a ∈ seed) →
      ∀ c ∈ compsAux adj seed l acc,
        c ∈ acc ∨ ∃ r ∈ seed, c = reachSet adj seed r := by
  intro l
  induction l with
  | nil => intro acc _ c hc; exact Or.inl (by simpa [compsAux] using hc)
  | cons x rest ih =>
    intro acc hl c hc
    unfold compsAux at hc
    split at hc
    · exact ih acc (fun a ha => hl a (List.mem_cons_of_mem _ ha)) c hc
    · rcases ih _ (fun a ha => hl a (List.mem_cons_of_mem _ ha)) c hc with h | h
      · rcases List.mem_append.mp h with h' | h'
        · exact Or.inl h'
        · have hcx : c = reachSet adj seed x := by simpa using h'
          exact Or.inr ⟨x, hl x (List.mem_cons_self x rest), hcx⟩
      · exact Or.inr h

theorem compsAux_cover (adj : ℕ → ℕ → Bool) (seed : Finset ℕ) :
    ∀ (l : List ℕ) (acc : List (Finset ℕ)) (a : ℕ), a ∈ l →
      ∃ c ∈ compsAux adj seed l acc, a ∈ c := by
  intro l
  induction l with
  | nil => intro acc a ha; exact absurd ha (List.not_mem_nil a)
  | cons x rest ih =>
    intro acc a ha
    unfold compsAux
    rcases List.mem_cons.mp ha with rfl | ha'
    · split
      · next hany =>
        rcases List.any_eq_true.mp hany with ⟨c, hc, hxc⟩
        exact ⟨c, compsAux_acc_mem adj seed rest acc c hc, of_decide_eq_true hxc⟩
      · refine ⟨reachSet adj seed a, ?_, mem_reach_self adj seed a⟩
        exact compsAux_acc_mem adj seed rest _ _
          (List.mem_append_right _ (List.mem_singleton.mpr rfl))
    · split
      · exact ih acc a ha'
      · exact ih _ a ha'

theorem compsAux_pairwise (adj : ℕ → ℕ → Bool) (seed : Finset ℕ)
    (hs : ∀ i ∈ seed, ∀ j ∈ seed, adj i j = adj j i) :
    ∀ (l : List ℕ) (acc : List (Finset ℕ)), (∀ a ∈ l, a ∈ seed) →
      (∀ c ∈ acc, ∃ r ∈ seed, c = reachSet adj seed r) →
      List.Pairwise (fun a b : Finset ℕ => Disjoint a b) acc →
      List.Pairwise (fun a b : Finset ℕ => Disjoint a b) (compsAux adj seed l acc) := by
  intro l
  induction l with
  | nil => intro acc _ _ hp; simpa [compsAux] using hp
  | cons x rest ih =>
    intro acc hl hrep hp
    unfold compsAux
    split
    · exact ih acc (fun a ha => hl a (List.mem_cons_of_mem _ ha)) hrep hp
    · next hany =>
      apply ih _ (fun a ha => hl a (List.mem_cons_of_mem _ ha))
      · intro c hc
        rcases List.mem_append.mp hc with h | h
        · exact hrep c h
        · exact ⟨x, hl x (List.mem_cons_self x rest), by simpa using h⟩
      · rw [List.pairwise_append]
        refine ⟨hp, List.pairwise_singleton _ _, ?_⟩
        intro c hc d hd
        have hd' : d = reachSet adj seed x := by simpa using hd
        subst hd'
        rcases hrep c hc with ⟨r, hr, rfl⟩
        rw [Finset.disjoint_left]
        intro z hz1 hz2
        have hxseed : x ∈ seed := hl x (List.mem_cons_self x rest)
        have heq : reachSet adj seed r = reachSet adj seed x :=
          reach_class_eq hs hr hxseed hz1 hz2
        have hxc : x ∈ reachSet adj seed r := by
          rw [heq]; exact mem_reach_self adj seed x
        have hcontra : (acc.any fun c => decide (x ∈ c)) = true :=
          List.any_eq_true.mpr ⟨_, hc, decide_eq_true hxc⟩
        exact hany hcontra

theorem mem_seedList {seed : Finset ℕ} {a : ℕ} : a ∈ seedList seed ↔ a ∈ seed := by
  unfold seedList
  rw [List.mem_filter]
  constructor
  · rintro ⟨_, h⟩
    exact of_decide_eq_true h
  · intro h
    refine ⟨List.mem_range.mpr (Nat.lt_succ_of_le ?_), decide_eq_true h⟩
    exact @Finset.le_sup ℕ ℕ _ _ seed id a h

theorem gcs_mem {adj : ℕ → ℕ → Bool} {seed : Finset ℕ} {c : Finset ℕ}
    (hc : c ∈ get_closed_subgraph adj seed) :
    ∃ r ∈ seed, c = reachSet adj seed r := by
  rcases compsAux_mem adj seed (seedList seed) []
      (fun a ha => mem_seedList.mp ha) c hc with h | h
  · exact absurd h (List.not_mem_nil c)
  · exact h

theorem gcs_subset_seed {adj : ℕ → ℕ → Bool} {seed c : Finset ℕ}
    (hc : c ∈ get_closed_subgraph adj seed) : c ⊆ seed := by
  rcases gcs_mem hc with ⟨r, hr, rfl⟩
  exact reach_subset_seed hr

theorem gcs_cover {adj : ℕ → ℕ → Bool} {seed : Finset ℕ} {a : ℕ} (ha : a ∈ seed) :
    ∃ c ∈ get_closed_subgraph adj seed, a ∈ c :=
  compsAux_cover adj seed _ [] a (mem_seedList.mpr ha)

theorem gcs_pairwise {adj : ℕ → ℕ → Bool} {seed : Finset ℕ}
    (hs : ∀ i ∈ seed, ∀ j ∈ seed, adj i j = adj j i) :
    List.Pairwise (fun a b : Finset ℕ => Disjoint a b) (get_closed_subgraph adj seed) :=
  compsAux_pairwise adj seed hs _ [] (fun a ha => mem_seedList.mp ha)
    (fun c hc => absurd hc (List.not_mem_nil c)) List.Pairwise.nil

theorem gcs_length_gt_one_iff {adj : ℕ → ℕ → Bool} {seed : Finset ℕ}
    (hs : ∀ i ∈ seed, ∀ j ∈ seed, adj i j = adj j i) :
    1 < (get_closed_subgraph adj seed).length ↔
      ∃ x ∈ seed, ∃ y ∈ seed, y ∉ reachSet adj seed x := by
  constructor
  · intro h
    cases hl : get_closed_subgraph adj seed with
    | nil => rw [hl] at h; simp at h
    | cons c1 t1 =>
      cases t1 with
      | nil => rw [hl] at h; simp at h
      | cons c2 t2 =>
        have h1 : c1 ∈ get_closed_subgraph adj seed := by
          rw [hl]; exact List.mem_cons_self _ _
        have h2 : c2 ∈ get_closed_subgraph adj seed := by
          rw [hl]; exact List.mem_cons_of_mem _ (List.mem_cons_self _ _)
        rcases gcs_mem h1 with ⟨r1, hr1, e1⟩
        rcases gcs_mem h2 with ⟨r2, hr2, e2⟩
        refine ⟨r1, hr1, r2, hr2, ?_⟩
        intro hmem
        have hp := @gcs_pairwise adj seed hs
        rw [hl] at hp
        have hdisj : Disjoint c1 c2 :=
          (List.pairwise_cons.mp hp).1 c2 (List.mem_cons_self _ _)
        have hin1 : r2 ∈ c1 := by rw [e1]; exact hmem
        have hin2 : r2 ∈ c2 := by rw [e2]; exact mem_reach_self adj seed r2
        exact (Finset.disjoint_left.mp hdisj hin1) hin2
  · rintro ⟨x, hx, y, hy, hnot⟩
    by_contra hle
    push_neg at hle
    rcases @gcs_cover adj seed x hx with ⟨cx, hcx, hxcx⟩
    rcases @gcs_cover adj seed y hy with ⟨cy, hcy, hycy⟩
    have hcc : cx = cy := by
      cases hl : get_closed_subgraph adj seed with
      | nil => rw [hl] at hcx; exact absurd hcx (List.not_mem_nil cx)
      | cons c t =>
        rw [hl] at hle hcx hcy
        cases t with
        | nil =>
          have e1 : cx = c := by simpa using hcx
          have e2 : cy = c := by simpa using hcy
          rw [e1, e2]
        | cons c' t' => simp at hle
    rcases gcs_mem hcx with ⟨r, hr, hcr⟩
    have hxr : x ∈ reachSet adj seed r := by rw [← hcr]; exact hxcx
    have hyr : y ∈ reachSet adj seed r := by rw [← hcr, hcc]; exact hycy
    have heq : reachSet adj seed x = reachSet adj seed r :=
      reach_class_eq hs hx hr (mem_reach_self adj seed x) hxr
    exact hnot (by rw [heq]; exact hyr)

theorem mem_foldr_union {l : List (Finset ℕ)} {a : ℕ} :
    a ∈ l.foldr (· ∪ ·) (∅ : Finset ℕ) ↔ ∃ c ∈ l, a ∈ c := by
  induction l with
  | nil => simp
  | cons c t ih => simp [List.foldr_cons, Finset.mem_union, ih]

theorem scanStep_split (ctx : ClsCtx) (st : ScanState) (frag : Finset ℕ) :
    ((scanStep ctx st frag).kept ++ (scanStep ctx st frag).dropped).Perm
      ((st.kept ++ st.dropped) ++ [frag]) := by
  have hkept : ∀ k d : List (Finset ℕ), ((k ++ [frag]) ++ d).Perm ((k ++ d) ++ [frag]) := by
    intro k d
    have h1 : (k ++ [frag]) ++ d = k ++ ([frag] ++ d) := by rw [List.append_assoc]
    have h2 : (k ++ d) ++ [frag] = k ++ (d ++ [frag]) := by rw [List.append_assoc]
    rw [h1, h2]
    exact List.Perm.append_left _ List.perm_append_comm
  have hdrop : ∀ k d : List (Finset ℕ), (k ++ (d ++ [frag])).Perm ((k ++ d) ++ [frag]) := by
    intro k d
    rw [← List.append_assoc]
  unfold scanStep
  split_ifs
  · exact hkept st.kept st.dropped
  · exact hdrop st.kept st.dropped
  · exact hkept st.kept st.dropped
  · exact hdrop st.kept st.dropped

theorem scan_split (ctx : ClsCtx) :
    ∀ (frags : List (Finset ℕ)) (st : ScanState),
      ((frags.foldl (scanStep ctx) st).kept ++
          (frags.foldl (scanStep ctx) st).dropped).Perm
        ((st.kept ++ st.dropped) ++ frags) := by
  intro frags
  induction frags with
  | nil => intro st; simp
  | cons f fs ih =>
    intro st
    rw [List.foldl_cons]
    refine (ih (scanStep ctx st f)).trans ?_
    refine (List.Perm.append_right fs (scanStep_split ctx st f)).trans ?_
    rw [List.append_assoc]
    exact List.Perm.refl _

theorem removelist_subset_range (m : Mol) :
    (prepare_initial_SBU m).1 ⊆ Finset.range m.n := by
  have hmet : findMetal m ⊆ Finset.range m.n := Finset.filter_subset _ _
  have hsbu : SBUlist0 m ⊆ Finset.range m.n := by
    apply Finset.union_subset hmet
    intro a ha
    rcases Finset.mem_biUnion.mp ha with ⟨b, _, hb⟩
    exact (Finset.mem_filter.mp hb).1
  simp only [prepare_initial_SBU]
  apply Finset.union_subset
  · apply Finset.union_subset hmet
    exact (Finset.filter_subset _ _).trans hsbu
  · intro a ha
    rcases Finset.mem_biUnion.mp ha with ⟨b, _, hb⟩
    exact (Finset.mem_filter.mp (Finset.mem_filter.mp hb).1).1

/-- Claim C2 (as stated) is false on `mol2`: after classification the kept
linker fragment `{1, 2}` is entirely contained in `SBUlist` (both carbons
are in the first coordination shell of a metal), so the SBU atom set and the
kept linker fragment's atom set are not disjoint. -/
theorem C2_counterexample :
    (pipelineC2 mol2 lenO0 imgO0 imgO0).2.kept.length = 1 ∧
      ∃ c ∈ (pipelineC2 mol2 lenO0 imgO0 imgO0).2.kept,
        1 ∈ c ∧ 2 ∈ c ∧ 1 ∈ (pipelineC2 mol2 lenO0 imgO0 imgO0).2.SBUlist := by
  refine ⟨?_, ?_⟩ <;> decide

/-- Claim C2, amended: after the classification stage, the initial removelist
(metals, metal-only-coordinated atoms and their hydrogens), each kept linker
fragment's atom set, and each dropped ligand's atom set are pairwise
disjoint, and their union equals the full set of atom indices of the
structure.  (The claim's `SBUlist` overlaps the kept linkers because the
first coordination shell of every metal is deliberately double-counted,
per the source comments at lines 592-596.) -/
theorem C2_theorem (m : Mol) (lenO : Finset ℕ → ℕ × ℕ)
    (imgO imgS : Finset ℕ → List (ℤ × ℤ × ℤ))
    (hsym : ∀ i ∈ Finset.range m.n, ∀ j ∈ Finset.range m.n, m.adj i j = m.adj j i) :
    List.Pairwise (fun a b : Finset ℕ => Disjoint a b)
      ((pipelineC2 m lenO imgO imgS).1 ::
        ((pipelineC2 m lenO imgO imgS).2.kept ++ (pipelineC2 m lenO imgO imgS).2.dropped)) ∧
    ((pipelineC2 m lenO imgO imgS).1 ::
        ((pipelineC2 m lenO imgO imgS).2.kept ++
          (pipelineC2 m lenO imgO imgS).2.dropped)).foldr (· ∪ ·) ∅ =
      Finset.range m.n := by
  classical
  have hr0sub : (prepare_initial_SBU m).1 ⊆ Finset.range m.n := removelist_subset_range m
  have hperm : (((pipelineC2 m lenO imgO imgS).2.kept) ++
      ((pipelineC2 m lenO imgO imgS).2.dropped)).Perm
      (get_closed_subgraph m.adj (Finset.range m.n \ (prepare_initial_SBU m).1)) := by
    have h := scan_split
        (⟨m.adj, get_closed_subgraph m.adj (prepare_initial_SBU m).1, lenO, imgO, imgS⟩ : ClsCtx)
        (get_closed_subgraph m.adj (Finset.range m.n \ (prepare_initial_SBU m).1))
        ⟨(prepare_initial_SBU m).1, (prepare_initial_SBU m).2, [], [], 0, 100, [], []⟩
    exact h
  have hseedsym : ∀ i ∈ Finset.range m.n \ (prepare_initial_SBU m).1,
      ∀ j ∈ Finset.range m.n \ (prepare_initial_SBU m).1, m.adj i j = m.adj j i :=
    fun i hi j hj => hsym i (Finset.sdiff_subset hi) j (Finset.sdiff_subset hj)
  have hpw : List.Pairwise (fun a b : Finset ℕ => Disjoint a b)
      (get_closed_subgraph m.adj (Finset.range m.n \ (prepare_initial_SBU m).1)) :=
    gcs_pairwise hseedsym
  have hpw2 : List.Pairwise (fun a b : Finset ℕ => Disjoint a b)
      ((pipelineC2 m lenO imgO imgS).2.kept ++ (pipelineC2 m lenO imgO imgS).2.dropped) :=
    (List.Perm.pairwise_iff (fun h => Disjoint.symm h) hperm).mpr hpw
  have hhead : ∀ c ∈ (pipelineC2 m lenO imgO imgS).2.kept ++
      (pipelineC2 m lenO imgO imgS).2.dropped,
      Disjoint (pipelineC2 m lenO imgO imgS).1 c := by
    intro c hc
    have hc' : c ∈ get_closed_subgraph m.adj
        (Finset.range m.n \ (prepare_initial_SBU m).1) := hperm.mem_iff.mp hc
    have hsubc := gcs_subset_seed hc'
    rw [Finset.disjoint_left]
    intro a ha hac
    exact (Finset.mem_sdiff.mp (hsubc hac)).2 ha
  constructor
  · exact List.pairwise_cons.mpr ⟨hhead, hpw2⟩
  · apply Finset.ext
    intro a
    simp only [List.foldr_cons, Finset.mem_union, Finset.mem_range]
    rw [mem_foldr_union]
    constructor
    · rintro (h | ⟨c, hc, hac⟩)
      · exact Finset.mem_range.mp (hr0sub h)
      · have hc' : c ∈ get_closed_subgraph m.adj
            (Finset.range m.n \ (prepare_initial_SBU m).1) := hperm.mem_iff.mp hc
        exact Finset.mem_range.mp (Finset.sdiff_subset (gcs_subset_seed hc' hac))
    · intro h
      by_cases ha : a ∈ (prepare_initial_SBU m).1
      · exact Or.inl ha
      · have halk : a ∈ Finset.range m.n \ (prepare_initial_SBU m).1 :=
          Finset.mem_sdiff.mpr ⟨Finset.mem_range.mpr h, ha⟩
        rcases @gcs_cover m.adj (Finset.range m.n \ (prepare_initial_SBU m).1) a halk with ⟨c, hc, hac⟩
        exact Or.inr ⟨c, hperm.mem_iff.mpr hc, hac⟩

/-- Witness for C2_theorem at the concrete structure `mol2`. -/
theorem C2_witness :
    (∀ i ∈ Finset.range mol2.n, ∀ j ∈ Finset.range mol2.n, mol2.adj i j = mol2.adj j i) ∧
    (List.Pairwise (fun a b : Finset ℕ => Disjoint a b)
      ((pipelineC2 mol2 lenO0 imgO0 imgO0).1 ::
        ((pipelineC2 mol2 lenO0 imgO0 imgO0).2.kept ++
          (pipelineC2 mol2 lenO0 imgO0 imgO0).2.dropped)) ∧
    ((pipelineC2 mol2 lenO0 imgO0 imgO0).1 ::
        ((pipelineC2 mol2 lenO0 imgO0 imgO0).2.kept ++
          (pipelineC2 mol2 lenO0 imgO0 imgO0).2.dropped)).foldr (· ∪ ·) ∅ =
      Finset.range mol2.n) :=
  ⟨by decide, C2_theorem mol2 lenO0 imgO0 imgO0 (by decide)⟩

/-- Claim C5: a candidate fragment with at least two anchoring atoms, all
touching a single initial SBU component, is classified as a ligand exactly
when both periodic-image offset sets contain one distinct offset: it is then
added to `removelist` and `SBUlist`, removed from the linker list (appended
to `dropped`, not to `kept`), and recorded in `ligand.txt`; otherwise it is
classified as a linker and kept. -/
theorem C5_theorem (ctx : ClsCtx) (st : ScanState) (frag : Finset ℕ)
    (h2 : 2 ≤ (anchorsOf ctx frag).card) (h1 : (sbuConnectSet ctx frag).card = 1) :
    (bothUniqueImages ctx frag = true →
        classifyFrag ctx frag = false ∧
        (scanStep ctx st frag).removelist = st.removelist ∪ frag ∧
        (scanStep ctx st frag).SBUlist = st.SBUlist ∪ frag ∧
        (scanStep ctx st frag).kept = st.kept ∧
        (scanStep ctx st frag).dropped = st.dropped ++ [frag] ∧
        (scanStep ctx st frag).ligandRecords = st.ligandRecords ++ [frag]) ∧
    (bothUniqueImages ctx frag = false →
        classifyFrag ctx frag = true ∧
        (scanStep ctx st frag).kept = st.kept ++ [frag] ∧
        (scanStep ctx st frag).removelist = st.removelist ∧
        (scanStep ctx st frag).dropped = st.dropped) := by
  have hnot2 : ¬ 2 ≤ (sbuConnectSet ctx frag).card := by omega
  constructor
  · intro hu
    simp [classifyFrag, scanStep, h2, hnot2, hu]
  · intro hu
    simp [classifyFrag, scanStep, h2, hnot2, hu]

/-- Witness for C5_theorem on `mol5`/`ctx5` with the fragment `{1, 2}`:
two anchors, one touched SBU component, unique offsets on both sides, hence
the ligand branch applies. -/
theorem C5_witness :
    (2 ≤ (anchorsOf ctx5 {1, 2}).card ∧ (sbuConnectSet ctx5 {1, 2}).card = 1 ∧
      bothUniqueImages ctx5 {1, 2} = true) ∧
    (bothUniqueImages ctx5 {1, 2} = true →
        classifyFrag ctx5 {1, 2} = false ∧
        (scanStep ctx5 st0ex {1, 2}).removelist = st0ex.removelist ∪ {1, 2} ∧
        (scanStep ctx5 st0ex {1, 2}).SBUlist = st0ex.SBUlist ∪ {1, 2} ∧
        (scanStep ctx5 st0ex {1, 2}).kept = st0ex.kept ∧
        (scanStep ctx5 st0ex {1, 2}).dropped = st0ex.dropped ++ [{1, 2}] ∧
        (scanStep ctx5 st0ex {1, 2}).ligandRecords = st0ex.ligandRecords ++ [{1, 2}]) :=
  ⟨⟨by decide, by decide, by decide⟩,
    (C5_theorem ctx5 st0ex {1, 2} (by decide) (by decide)).1⟩

theorem aggStep_comm (ctx : ClsCtx) (p : ℕ × ℕ) (f g : Finset ℕ) :
    aggStep ctx (aggStep ctx p f) g = aggStep ctx (aggStep ctx p g) f := by
  unfold aggStep
  split_ifs <;> try rfl
  rw [Prod.mk.injEq]
  constructor
  · exact max_left_comm _ _ _
  · exact min_left_comm _ _ _

theorem foldl_aggStep_perm (ctx : ClsCtx) {l l' : List (Finset ℕ)} (hp : l.Perm l') :
    ∀ p : ℕ × ℕ, l.foldl (aggStep ctx) p = l'.foldl (aggStep ctx) p := by
  induction hp with
  | nil => intro p; rfl
  | cons x _ ih => intro p; simp only [List.foldl_cons]; exact ih _
  | swap x y t => intro p; simp only [List.foldl_cons]; rw [aggStep_comm]
  | trans _ _ ih1 ih2 => intro p; rw [ih1 p, ih2 p]

theorem scanStep_aggs (ctx : ClsCtx) (st : ScanState) (f : Finset ℕ) :
    ((scanStep ctx st f).maxMin, (scanStep ctx st f).minMax) =
      aggStep ctx (st.maxMin, st.minMax) f := by
  by_cases h2 : 2 ≤ (anchorsOf ctx f).card
  · by_cases hc : 2 ≤ (sbuConnectSet ctx f).card
    · simp [scanStep, aggStep, classifyFrag, h2, hc]
    · by_cases hu : bothUniqueImages ctx f = true
      · simp [scanStep, aggStep, classifyFrag, h2, hc, hu]
      · simp [scanStep, aggStep, classifyFrag, h2, hc, hu]
  · simp [scanStep, aggStep, classifyFrag, h2]

theorem scan_aggs_eq (ctx : ClsCtx) :
    ∀ (frags : List (Finset ℕ)) (st : ScanState),
      ((frags.foldl (scanStep ctx) st).maxMin, (frags.foldl (scanStep ctx) st).minMax) =
        frags.foldl (aggStep ctx) (st.maxMin, st.minMax) := by
  intro frags
  induction frags with
  | nil => intro st; rfl
  | cons f fs ih =>
    intro st
    simp only [List.foldl_cons]
    rw [ih (scanStep ctx st f), scanStep_aggs]

theorem scanAggs_mono (ctx : ClsCtx) (l : List (Finset ℕ)) (f : Finset ℕ) (p : ℕ × ℕ) :
    (l.foldl (aggStep ctx) p).1 ≤ ((l ++ [f]).foldl (aggStep ctx) p).1 ∧
    ((l ++ [f]).foldl (aggStep ctx) p).2 ≤ (l.foldl (aggStep ctx) p).2 := by
  rw [List.foldl_append]
  simp only [List.foldl_cons, List.foldl_nil]
  unfold aggStep
  split_ifs
  · exact ⟨le_max_right _ _, min_le_right _ _⟩
  · exact ⟨le_refl _, le_refl _⟩

/-- Claim C8: during the classification scan, `max_min_linker_length` is
non-decreasing and `min_max_linker_length` is non-increasing as each
successive fragment is processed (appending one more fragment can only grow
the first and shrink the second aggregate); the final pair is invariant
under every permutation of the scan order; and the aggregate pair carried by
the scan state is the fold of the isolated aggregate update. -/
theorem C8_theorem (ctx : ClsCtx) (st : ScanState) (l l' : List (Finset ℕ))
    (f : Finset ℕ) (hp : l.Perm l') :
    (scanAggs ctx l).1 ≤ (scanAggs ctx (l ++ [f])).1 ∧
    (scanAggs ctx (l ++ [f])).2 ≤ (scanAggs ctx l).2 ∧
    scanAggs ctx l = scanAggs ctx l' ∧
    ((l.foldl (scanStep ctx) st).maxMin, (l.foldl (scanStep ctx) st).minMax) =
      l.foldl (aggStep ctx) (st.maxMin, st.minMax) :=
  ⟨(scanAggs_mono ctx l f (0, 100)).1, (scanAggs_mono ctx l f (0, 100)).2,
    foldl_aggStep_perm ctx hp (0, 100), scan_aggs_eq ctx l st⟩

/-- Witness for C8_theorem with a concrete two-fragment scan and its swap. -/
theorem C8_witness :
    ([({1} : Finset ℕ), {2}].Perm [({2} : Finset ℕ), {1}]) ∧
    ((scanAggs ctx5 [{1}, {2}]).1 ≤ (scanAggs ctx5 ([{1}, {2}] ++ [{3}])).1 ∧
      (scanAggs ctx5 ([{1}, {2}] ++ [{3}])).2 ≤ (scanAggs ctx5 [{1}, {2}]).2 ∧
      scanAggs ctx5 [{1}, {2}] = scanAggs ctx5 [{2}, {1}] ∧
      ((([({1} : Finset ℕ), {2}]).foldl (scanStep ctx5) st0ex).maxMin,
        (([({1} : Finset ℕ), {2}]).foldl (scanStep ctx5) st0ex).minMax) =
        ([({1} : Finset ℕ), {2}]).foldl (aggStep ctx5) (st0ex.maxMin, st0ex.minMax)) :=
  ⟨List.Perm.swap _ _ _,
    C8_theorem ctx5 st0ex [{1}, {2}] [{2}, {1}] {3} (List.Perm.swap _ _ _)⟩

theorem lt_foldl_max {l : List ℚ} {a c : ℚ} :
    c < l.foldl max a ↔ c < a ∨ ∃ x ∈ l, c < x := by
  induction l generalizing a with
  | nil => simp
  | cons x t ih =>
    rw [List.foldl_cons, ih, lt_max_iff]
    constructor
    · rintro ((h | h) | ⟨y, hy, h⟩)
      · exact Or.inl h
      · exact Or.inr ⟨x, List.mem_cons_self x t, h⟩
      · exact Or.inr ⟨y, List.mem_cons_of_mem _ hy, h⟩
    · rintro (h | ⟨y, hy, h⟩)
      · exact Or.inl (Or.inl h)
      · rcases List.mem_cons.mp hy with rfl | hy'
        · exact Or.inl (Or.inr h)
        · exact Or.inr ⟨y, hy', h⟩

theorem is_periodic_iff (f : SBUFrag) :
    is_periodic f = true ↔
      ∃ p ∈ bondedPairs f.n f.graph, 16 < sqdist (bcmShift f p.1) (bcmShift f p.2) := by
  simp only [is_periodic, periodic_checker, decide_eq_true_eq, maxBondedSq, lt_foldl_max,
    List.mem_map]
  constructor
  · rintro (h | ⟨x, ⟨p, hp, rfl⟩, hlt⟩)
    · norm_num at h
    · exact ⟨p, hp, hlt⟩
  · rintro ⟨p, hp, h⟩
    exact Or.inr ⟨_, ⟨p, hp, rfl⟩, h⟩

theorem breakdown_ret4_iff (cl : ℕ) (hcl : 2 < cl) :
    ∀ (l : List SBUFrag) (xyz : Option Bool),
      breakdown_sbu_go cl true xyz (l.map (fun f => (f, false))) = SBUOutcome.ret 4 ↔
        ∃ f ∈ l, is_periodic f = true := by
  intro l
  induction l with
  | nil => intro xyz; simp [breakdown_sbu_go]
  | cons f fs ih =>
    intro xyz
    rw [List.map_cons]
    rw [show breakdown_sbu_go cl true xyz ((f, false) :: List.map (fun g => (g, false)) fs) =
        (if cl ≤ 2 then SBUOutcome.ret 2
         else if is_periodic f = true then SBUOutcome.ret 4
         else breakdown_sbu_go cl true (some (is_periodic f))
           (List.map (fun g => (g, false)) fs)) from rfl]
    rw [if_neg (by omega : ¬ cl ≤ 2)]
    by_cases hf : is_periodic f = true
    · rw [if_pos hf]
      constructor
      · intro _
        exact ⟨f, List.mem_cons_self f fs, hf⟩
      · intro _
        rfl
    · rw [if_neg hf, ih (some (is_periodic f))]
      constructor
      · rintro ⟨g, hg, h⟩
        exact ⟨g, List.mem_cons_of_mem _ hg, h⟩
      · rintro ⟨g, hg, h⟩
        rcases List.mem_cons.mp hg with rfl | hg'
        · exact absurd h hf
        · exact ⟨g, hg', h⟩

/-- Claim C3 (as stated) is false on `exFrag3`: its raw pre-correction
reconstructed coordinates have a bonded pair at distance 5 > 4, yet the
fragment is not classified as a rod (the source checks the post-correction
coordinates, where the capping bond has been shortened to 15/4), and the
decomposition completes instead of returning 4. -/
theorem C3_counterexample :
    rod_per_claim exFrag3 = true ∧ is_periodic exFrag3 = false ∧
      breakdown_sbu_phase 3 true [(exFrag3, false)] = SBUOutcome.finished := by
  have hpairs : bondedPairs 2 exFrag3.graph = [(0, 1), (1, 0)] := by decide
  have hraw : maxBondedSq 2 exFrag3.graph exFrag3.recon = 25 := by
    unfold maxBondedSq
    rw [hpairs]
    norm_num [exFrag3, sqdist]
  have hb0 : bcmShift exFrag3 0 = ((0 : ℚ), (0 : ℚ), (0 : ℚ)) := rfl
  have hb1 : bcmShift exFrag3 1 = ((15 / 4 : ℚ), (0 : ℚ), (0 : ℚ)) := by
    unfold bcmShift
    norm_num [exFrag3, List.find?, vadd, vscale, vsub]
  have hcorr : maxBondedSq 2 exFrag3.graph (bcmShift exFrag3) = 225 / 16 := by
    unfold maxBondedSq
    rw [hpairs]
    norm_num [hb0, hb1, sqdist]
  have h1 : rod_per_claim exFrag3 = true := by
    unfold rod_per_claim periodic_checker
    rw [show exFrag3.n = 2 from rfl, hraw]
    norm_num
  have h2 : is_periodic exFrag3 = false := by
    unfold is_periodic periodic_checker
    rw [show exFrag3.n = 2 from rfl, hcorr]
    norm_num
  refine ⟨h1, h2, ?_⟩
  unfold breakdown_sbu_phase breakdown_sbu_go
  rw [if_neg (by omega : ¬ (3 : ℕ) ≤ 2)]
  simp [h2, breakdown_sbu_go]

/-- Claim C3, amended: an assembled SBU fragment is classified (and written)
as a 1D rod if and only if some bonded pair of its coordinates AFTER the
bond-length correction (`BCM(..., 0.75)`) is at distance strictly greater
than 4 length units (squared: 16); and, when `current_longest > 2`, the SBU
loop of `breakdown_MOF` (with a writable sbupath and no pre-existing files)
terminates the whole decomposition with return code 4 exactly when some SBU
fragment in the list is such a rod. -/
theorem C3_theorem (f : SBUFrag) (sbus : List SBUFrag) (cl : ℕ) (hcl : 2 < cl) :
    (is_periodic f = true ↔
        ∃ p ∈ bondedPairs f.n f.graph, 16 < sqdist (bcmShift f p.1) (bcmShift f p.2)) ∧
    (breakdown_sbu_phase cl true (sbus.map (fun g => (g, false))) = SBUOutcome.ret 4 ↔
        ∃ g ∈ sbus, is_periodic g = true) :=
  ⟨is_periodic_iff f, breakdown_ret4_iff cl hcl sbus none⟩

/-- Witness for C3_theorem at the concrete fragment `exFrag3`. -/
theorem C3_witness :
    (2 < 3) ∧
    ((is_periodic exFrag3 = true ↔
        ∃ p ∈ bondedPairs exFrag3.n exFrag3.graph,
          16 < sqdist (bcmShift exFrag3 p.1) (bcmShift exFrag3 p.2)) ∧
    (breakdown_sbu_phase 3 true ([exFrag3].map (fun g => (g, false))) = SBUOutcome.ret 4 ↔
        ∃ g ∈ [exFrag3], is_periodic g = true)) :=
  ⟨by decide, C3_theorem exFrag3 [exFrag3] 3 (by decide)⟩

/-- Claim C9: with a non-empty SBU list, `current_longest > 2`, and either a
falsy `sbupath` or a pre-existing target file for the first SBU, the first
iteration of the SBU loop reads the never-assigned local `xyzname` (line
292) and raises a `NameError`: the binding at lines 282-286 is guarded by
`sbupath and not os.path.exists(...)` while the read is unconditional. -/
theorem C9_theorem (cl : ℕ) (sbupath : Bool) (f : SBUFrag) (fe : Bool)
    (rest : List (SBUFrag × Bool)) (hcl : 2 < cl)
    (hpath : sbupath = false ∨ fe = true) :
    breakdown_sbu_phase cl sbupath ((f, fe) :: rest) = SBUOutcome.nameErr := by
  unfold breakdown_sbu_phase breakdown_sbu_go
  rw [if_neg (by omega : ¬ cl ≤ 2)]
  rcases hpath with h | h
  · subst h
    simp
  · subst h
    simp

/-- Witness for C9_theorem: a one-fragment SBU list with `sbupath = False`. -/
theorem C9_witness :
    (2 < 3 ∧ ((false = false) ∨ (false = true))) ∧
      breakdown_sbu_phase 3 false [(exFrag3, false)] = SBUOutcome.nameErr :=
  ⟨⟨by decide, Or.inl rfl⟩, C9_theorem 3 false exFrag3 false [] (by decide) (Or.inl rfl)⟩

/-- Claim C10 (as stated) is false on `mol10`: the bond graph contains a
connected component with no metal atom, the run does abort with the pair
`(None, None)`, but the failure record logged is "no metal found" (the
metal-set check at lines 566-569 precedes the component scan), not
"solvent molecules". -/
theorem C10_counterexample :
    ((get_closed_subgraph mol10.adj (Finset.range mol10.n)).any
        (fun c => decide (c ∩ findMetal mol10 = ∅)) = true) ∧
      make_MOF_precheck mol10 false = PrecheckOut.abortNone "no metal found" ∧
      make_MOF_precheck mol10 false ≠ PrecheckOut.abortNone "solvent molecules" := by
  refine ⟨?_, ?_, ?_⟩ <;> decide

/-- Claim C10, amended: for every input structure that passes the earlier
checks (at most 2000 atoms, no atomic overlap, non-empty metal set) and
whose bond graph contains a connected component with no metal atom,
`make_MOF_fragments` aborts before any decomposition work, logs a
"solvent molecules" failure record, and returns the pair `(None, None)`. -/
theorem C10_theorem (m : Mol) (overlap : Bool) (hn : m.n ≤ 2000)
    (hov : overlap = false) (hmet : findMetal m ≠ ∅)
    (hcomp : ∃ c ∈ get_closed_subgraph m.adj (Finset.range m.n), c ∩ findMetal m = ∅) :
    make_MOF_precheck m overlap = PrecheckOut.abortNone "solvent molecules" := by
  unfold make_MOF_precheck
  rw [if_neg (by omega : ¬ 2000 < m.n), hov, if_neg (by simp), if_neg hmet]
  rcases hcomp with ⟨c, hc, hcm⟩
  cases hfind : (get_closed_subgraph m.adj (Finset.range m.n)).find?
      (fun c => decide (c ∩ findMetal m = ∅)) with
  | none =>
    have := List.find?_eq_none.mp hfind c hc
    exact absurd (decide_eq_true hcm) this
  | some c' => rfl

/-- Witness for C10_theorem on `mol10b`: a metal plus a disconnected
solvent atom. -/
theorem C10_witness :
    (mol10b.n ≤ 2000 ∧ (false = false) ∧ findMetal mol10b ≠ ∅ ∧
      ∃ c ∈ get_closed_subgraph mol10b.adj (Finset.range mol10b.n),
        c ∩ findMetal mol10b = ∅) ∧
    make_MOF_precheck mol10b false = PrecheckOut.abortNone "solvent molecules" :=
  ⟨⟨by decide, rfl, by decide, by decide⟩,
    C10_theorem mol10b false (by decide) rfl (by decide) (by decide)⟩

/-- Claim C6: a linker fragment is silently skipped by `breakdown_MOF`
(the `continue` of line 361, before any coordinates or file are produced)
exactly when it has zero atoms, or two of its non-placeholder atoms are not
connected inside the non-placeholder subgraph (more than one component), or
it has fewer than 3 non-placeholder atoms. -/
theorem C6_theorem (m : Mol) (allSBU linker : List ℕ)
    (hsym : ∀ i ∈ linker_noX_seed m allSBU linker,
      ∀ j ∈ linker_noX_seed m allSBU linker, m.adj i j = m.adj j i) :
    linker_skip m allSBU linker = true ↔
      ((buildLinkerFrag m allSBU linker).st.atomsL.length = 0 ∨
        (∃ x ∈ linker_noX_seed m allSBU linker, ∃ y ∈ linker_noX_seed m allSBU linker,
          y ∉ reachSet m.adj (linker_noX_seed m allSBU linker) x) ∨
        heavyCount (buildLinkerFrag m allSBU linker) < 3) := by
  unfold linker_skip
  simp only [Bool.or_eq_true, beq_iff_eq, decide_eq_true_eq]
  rw [gcs_length_gt_one_iff hsym]
  rw [or_assoc]

/-- Witness for C6_theorem on `mol6` with the linker `[1, 2, 3]` hanging off
the single SBU atom 0. -/
theorem C6_witness :
    (∀ i ∈ linker_noX_seed mol6 [0] [1, 2, 3],
      ∀ j ∈ linker_noX_seed mol6 [0] [1, 2, 3], mol6.adj i j = mol6.adj j i) ∧
    (linker_skip mol6 [0] [1, 2, 3] = true ↔
      ((buildLinkerFrag mol6 [0] [1, 2, 3]).st.atomsL.length = 0 ∨
        (∃ x ∈ linker_noX_seed mol6 [0] [1, 2, 3],
          ∃ y ∈ linker_noX_seed mol6 [0] [1, 2, 3],
            y ∉ reachSet mol6.adj (linker_noX_seed mol6 [0] [1, 2, 3]) x) ∨
        heavyCount (buildLinkerFrag mol6 [0] [1, 2, 3]) < 3)) :=
  ⟨by decide, C6_theorem mol6 [0] [1, 2, 3] (by decide)⟩

theorem getD_append_lt {α : Type} (l l' : List α) (d : α) (i : ℕ) (h : i < l.length) :
    (l ++ l').getD i d = l.getD i d := by
  induction l generalizing i with
  | nil => simp at h
  | cons x t ih =>
    cases i with
    | zero => rfl
    | succ i =>
      simp only [List.cons_append, List.getD_cons_succ]
      exact ih i (by simpa using h)

theorem getD_append_len {α : Type} (l l' : List α) (d : α) (i : ℕ) :
    (l ++ l').getD (l.length + i) d = l'.getD i d := by
  induction l with
  | nil => simp
  | cons x t ih =>
    have hlen : (x :: t).length + i = (t.length + i) + 1 := by
      simp [List.length_cons]
      omega
    rw [hlen, List.cons_append, List.getD_cons_succ]
    exact ih

theorem getD_mem_of_lt {α : Type} (l : List α) (d : α) (i : ℕ) (h : i < l.length) :
    l.getD i d ∈ l := by
  induction l generalizing i with
  | nil => simp at h
  | cons x t ih =>
    cases i with
    | zero => exact List.mem_cons_self _ _
    | succ i => exact List.mem_cons_of_mem _ (ih i (by simpa using h))

theorem foldl_invariant {α σ : Type} (P : σ → Prop) (f : σ → α → σ) :
    ∀ (l : List α) (s : σ), P s → (∀ s a, a ∈ l → P s → P (f s a)) → P (l.foldl f s) := by
  intro l
  induction l with
  | nil => intro s hs _; exact hs
  | cons x t ih =>
    intro s hs hstep
    exact ih (f s x) (hstep s x (List.mem_cons_self x t) hs)
      (fun s' a ha => hstep s' a (List.mem_cons_of_mem _ ha))

theorem nonXF_appendAtom {m : Mol} {st : FragState} {v : ℕ}
    (h : NonXF st) (hv : m.sym v ≠ "X") : NonXF (appendAtom m st v) := by
  intro a ha
  rcases List.mem_append.mp ha with h' | h'
  · exact h a h'
  · have hax : a = ⟨m.sym v, m.coords v⟩ := by simpa using h'
    rw [hax]
    exact hv

theorem nonXF_addAtomGuarded {m : Mol} {st : FragState} {v : ℕ}
    (h : NonXF st) (hv : m.sym v ≠ "X") : NonXF (addAtomGuarded m st v) := by
  unfold addAtomGuarded
  split
  · exact h
  · exact nonXF_appendAtom h hv

theorem hxScanH_pres {m : Mol} {hx : HXState} {b : ℕ}
    (h : NonXF hx.st ∧ XWFL m hx.xlist) :
    NonXF (hxScanH m hx b).st ∧ XWFL m (hxScanH m hx b).xlist := by
  unfold hxScanH
  split
  · next hc =>
    refine ⟨nonXF_appendAtom h.1 ?_, h.2⟩
    rw [hc.1]
    decide
  · exact h

theorem hxScanX_pres {m : Mol} {mainPaths : List ℕ} {a : ℕ} {hx : HXState} {b : ℕ}
    (h : NonXF hx.st ∧ XWFL m hx.xlist) :
    NonXF (hxScanX m mainPaths a hx b).st ∧ XWFL m (hxScanX m mainPaths a hx b).xlist := by
  unfold hxScanX
  split
  · refine ⟨h.1, ?_⟩
    intro c hc
    rcases List.mem_append.mp hc with h' | h'
    · exact h.2 c h'
    · have hcc : c = ⟨⟨"X", m.coords b⟩, b, a⟩ := by simpa using h'
      rw [hcc]
  · exact h

theorem hxScan_pres {m : Mol} {mainPaths : List ℕ} {st : FragState}
    (h : NonXF st) :
    NonXF (hxScan m mainPaths st).st ∧ XWFL m (hxScan m mainPaths st).xlist := by
  unfold hxScan
  apply foldl_invariant (fun hx : HXState => NonXF hx.st ∧ XWFL m hx.xlist)
  · exact ⟨h, fun c hc => absurd hc (List.not_mem_nil c)⟩
  · intro hx a _ hhx
    unfold hxScanAtom
    apply foldl_invariant (fun hx : HXState => NonXF hx.st ∧ XWFL m hx.xlist)
    · exact hhx
    · intro hx' b _ hhx'
      exact hxScanX_pres (hxScanH_pres hhx')

theorem sbuRegular_nonXF {m : Mol} {regularAdds : List ℕ}
    (h1 : ∀ v ∈ regularAdds, m.sym v ≠ "X") : NonXF (sbuRegularPhase m regularAdds) := by
  unfold sbuRegularPhase
  apply foldl_invariant NonXF
  · intro a ha
    exact absurd ha (List.not_mem_nil a)
  · intro st v hv hst
    exact nonXF_addAtomGuarded hst (h1 v hv)

theorem linkerXScan_pres {m : Mol} {allSBU : List ℕ} {b : ℕ}
    {sx : FragState × List XCand} (h : NonXF sx.1 ∧ XWFL m sx.2) :
    NonXF (linkerXScan m allSBU b sx).1 ∧ XWFL m (linkerXScan m allSBU b sx).2 := by
  unfold linkerXScan
  apply foldl_invariant (fun sx : FragState × List XCand => NonXF sx.1 ∧ XWFL m sx.2)
  · exact h
  · intro sx' sub _ hsx'
    dsimp only
    split
    · refine ⟨hsx'.1, ?_⟩
      intro c hc
      rcases List.mem_append.mp hc with h' | h'
      · exact hsx'.2 c h'
      · have hcc : c = ⟨⟨"X", m.coords sub⟩, sub, b⟩ := by simpa using h'
        rw [hcc]
    · exact hsx'

theorem linkerCollect_pres {m : Mol} {allSBU linker : List ℕ}
    (h2 : ∀ v ∈ linker, m.sym v ≠ "X") (h3 : ∀ v ∈ allSBU, m.sym v ≠ "X") :
    NonXF (linkerCollect m allSBU linker).1 ∧ XWFL m (linkerCollect m allSBU linker).2 := by
  unfold linkerCollect
  apply foldl_invariant (fun sx : FragState × List XCand => NonXF sx.1 ∧ XWFL m sx.2)
  · exact ⟨fun a ha => absurd ha (List.not_mem_nil a),
      fun c hc => absurd hc (List.not_mem_nil c)⟩
  · intro sx val hval hsx
    unfold linkerAtomStep
    split
    · exact hsx
    · apply foldl_invariant (fun sx : FragState × List XCand => NonXF sx.1 ∧ XWFL m sx.2)
      · exact ⟨nonXF_appendAtom hsx.1 (h2 val hval), hsx.2⟩
      · intro sx' b hb hsx'
        unfold linkerBondedStep
        split
        · next hc =>
          exact linkerXScan_pres ⟨nonXF_appendAtom hsx'.1 (h3 b hc.1), hsx'.2⟩
        · exact hsx'

theorem appendXAtoms_spec (m : Mol) (st0 : FragState) (xl : List XCand)
    (h0 : NonXF st0) (hwf : XWFL m xl) :
    capsTailExact m (appendXAtoms st0 xl) := by
  have hP : (∃ t, (appendXAtoms st0 xl).st.atomsL = st0.atomsL ++ t ∧
        ∀ a ∈ t, a.sym = "X") ∧
      ∀ r ∈ (appendXAtoms st0 xl).caps,
        r.xlocal < (appendXAtoms st0 xl).st.atomsL.length ∧
        ((appendXAtoms st0 xl).st.atomsL.getD r.xlocal default).sym = "X" ∧
        ((appendXAtoms st0 xl).st.atomsL.getD r.xlocal default).xyz =
          m.coords r.replaced := by
    unfold appendXAtoms
    apply foldl_invariant
      (fun out : FragOut =>
        (∃ t, out.st.atomsL = st0.atomsL ++ t ∧ ∀ a ∈ t, a.sym = "X") ∧
        ∀ r ∈ out.caps, r.xlocal < out.st.atomsL.length ∧
          (out.st.atomsL.getD r.xlocal default).sym = "X" ∧
          (out.st.atomsL.getD r.xlocal default).xyz = m.coords r.replaced)
    · refine ⟨⟨[], by simp, by simp⟩, ?_⟩
      intro r hr
      exact absurd hr (List.not_mem_nil r)
    · intro out c hc hout
      dsimp only
      split
      · exact hout
      · rcases hout with ⟨⟨t, hdec, htX⟩, hcaps⟩
        have hatom : c.atom = ⟨"X", m.coords c.replaced⟩ := hwf c hc
        constructor
        · refine ⟨t ++ [c.atom], ?_, ?_⟩
          · dsimp only
            rw [hdec, List.append_assoc]
          · intro a ha
            rcases List.mem_append.mp ha with h' | h'
            · exact htX a h'
            · have haa : a = c.atom := by simpa using h'
              rw [haa, hatom]
        · intro r hr
          dsimp only at hr ⊢
          rcases List.mem_append.mp hr with h' | h'
          · rcases hcaps r h' with ⟨hb, hs, hx⟩
            refine ⟨?_, ?_, ?_⟩
            · rw [List.length_append]
              omega
            · rw [getD_append_lt _ _ _ _ hb]
              exact hs
            · rw [getD_append_lt _ _ _ _ hb]
              exact hx
          · have hrr : r = ⟨out.st.atomsL.length, c.replaced, c.anchor⟩ := by simpa using h'
            subst hrr
            have hget : (out.st.atomsL ++ [c.atom]).getD out.st.atomsL.length default =
                c.atom := by
              have hh := getD_append_len out.st.atomsL [c.atom] default 0
              rw [Nat.add_zero] at hh
              rw [hh]
              rfl
            refine ⟨?_, ?_, ?_⟩
            · rw [List.length_append]
              simp
            · rw [hget, hatom]
            · rw [hget, hatom]
  rcases hP with ⟨⟨t, hdec, htX⟩, hcaps⟩
  constructor
  · intro r hr
    exact (hcaps r hr).2
  · intro i j hi hj hni hxj
    have hilt : i < st0.atomsL.length := by
      by_contra hge
      push_neg at hge
      have hi' : i = st0.atomsL.length + (i - st0.atomsL.length) := by omega
      have hlen : (appendXAtoms st0 xl).st.atomsL.length =
          st0.atomsL.length + t.length := by rw [hdec, List.length_append]
      have hkt : i - st0.atomsL.length < t.length := by omega
      have hX : ((appendXAtoms st0 xl).st.atomsL.getD i default).sym = "X" := by
        rw [hdec, hi', getD_append_len]
        exact htX _ (getD_mem_of_lt _ _ _ hkt)
      exact hni hX
    have hjge : st0.atomsL.length ≤ j := by
      by_contra hlt
      push_neg at hlt
      have hnX : ((appendXAtoms st0 xl).st.atomsL.getD j default).sym ≠ "X" := by
        rw [hdec, getD_append_lt _ _ _ _ hlt]
        exact h0 _ (getD_mem_of_lt _ _ _ hlt)
      exact hnX hxj
    omega

/-- Claim C7: in every fragment emitted by `breakdown_MOF` (SBU or linker),
each capping placeholder is created at exactly the 3D position of the global
atom it replaces, and all placeholders occupy the tail of the local atom
list: every placeholder's local index exceeds every non-placeholder's.  The
hypotheses state that the candidate atoms fed to the builders are real
element atoms (symbol never "X"), which holds for every structure read from
a crystallographic file. -/
theorem C7_theorem (m : Mol) (regularAdds mainPaths allSBU linker : List ℕ)
    (h1 : ∀ v ∈ regularAdds, m.sym v ≠ "X")
    (h2 : ∀ v ∈ linker, m.sym v ≠ "X")
    (h3 : ∀ v ∈ allSBU, m.sym v ≠ "X") :
    capsTailExact m (buildSBUFrag m regularAdds mainPaths) ∧
    capsTailExact m (buildLinkerFrag m allSBU linker) := by
  constructor
  · have h := @hxScan_pres m mainPaths (sbuRegularPhase m regularAdds)
      (sbuRegular_nonXF h1)
    exact appendXAtoms_spec m _ _ h.1 h.2
  · have h := linkerCollect_pres h2 h3
    exact appendXAtoms_spec m _ _ h.1 h.2

/-- Witness for C7_theorem on `mol6`, with SBU seed `[0]`, organic main path
`[1]`, SBU atom set `[0]` and linker `[1, 2, 3]`. -/
theorem C7_witness :
    ((∀ v ∈ [0], mol6.sym v ≠ "X") ∧ (∀ v ∈ [1, 2, 3], mol6.sym v ≠ "X") ∧
      (∀ v ∈ [0], mol6.sym v ≠ "X")) ∧
    (capsTailExact mol6 (buildSBUFrag mol6 [0] [1]) ∧
      capsTailExact mol6 (buildLinkerFrag mol6 [0] [1, 2, 3])) :=
  ⟨⟨by decide, by decide, by decide⟩,
    C7_theorem mol6 [0] [1] [0] [1, 2, 3] (by decide) (by decide) (by decide)⟩
